import Mathlib

/-!
Verification of the `radio` broadcast server (`sockserver.py`) against its
specification. The Python code is shallowly embedded: byte strings become
`List Nat`, floats (`time.time()`, frame durations) become `ℚ`, fallible
operations (Python exceptions) become `Option`, and `while` loops become
fuel-indexed structural recursions where the fuel passed at each entry point
(the length of the data being scanned) is provably sufficient because every
iteration advances the position by at least one byte.
-/

namespace RadioServer

/-- Bitrate lookup table from `Radio.__parse_mp3_header` (`bitrates`), indexed
by the 4 bitrate bits; `none` models Python's `None` entries. -/
def bitrates : List (Option Nat) :=
  [none, some 32, some 40, some 48, some 56, some 64, some 80, some 96,
   some 112, some 128, some 160, some 192, some 224, some 256, some 320, none]

/-- Sample-rate lookup table from `Radio.__parse_mp3_header` (`sample_rates`). -/
def sample_rates : List (Option Nat) := [some 44100, some 48000, some 32000, none]

/-- Embedding of `Radio.__parse_mp3_header`. Returns
`(bitrate, sample_rate, frame_size, duration)` on success. The Python
`int((144 * bitrate * 1000) / sample_rate + padding_bit)` floors a float whose
value is within 2e-13 of the exact rational while the rational, when not an
integer, is at least 1/48000 away from one, so the floor equals the exact
natural-number division used here. -/
def parse_mp3_header (header : List Nat) : Option (Nat × Nat × Nat × ℚ) :=
  let b0 := header.getD 0 0
  let b1 := header.getD 1 0
  let b2 := header.getD 2 0
  if b0 = 0xFF ∧ b1 &&& 0xE0 = 0xE0 then
    let bitrate_index := (b2 >>> 4) &&& 0x0F
    let sample_rate_index := (b2 >>> 2) &&& 0x03
    let padding_bit := (b2 >>> 1) &&& 0x01
    match bitrates.getD bitrate_index none, sample_rates.getD sample_rate_index none with
    | some bitrate, some sample_rate =>
        some (bitrate, sample_rate,
              (144 * bitrate * 1000) / sample_rate + padding_bit,
              1152 / (sample_rate : ℚ))
    | _, _ => none
  else none

/-- Scan loop shared by `calculate_buffer_duration` and `find_chunk_by_time`
(the `while position + 4 <= len(data)` loop): accumulates frame durations into
`total` and advances `position` by `frame_size` on a parsed header, by 1
otherwise. Returns `(total_duration, position)` at loop exit. `fuel` bounds the
number of iterations; `data.length` is always enough because `position`
strictly increases. -/
def scanGo : Nat → List Nat → Nat → ℚ → ℚ × Nat
  | 0, _, position, total => (total, position)
  | fuel + 1, data, position, total =>
    if position + 4 ≤ data.length then
      match parse_mp3_header ((data.drop position).take 4) with
      | some (_, _, frame_size, duration) =>
          scanGo fuel data (position + frame_size) (total + duration)
      | none => scanGo fuel data (position + 1) total
    else (total, position)

/-- One block's scan with sufficient fuel. -/
def scanFrom (data : List Nat) (position : Nat) (total : ℚ) : ℚ × Nat :=
  scanGo data.length data position total

/-- Block loop of `Radio.calculate_buffer_duration`: for each chunk, scan
`leftover ++ chunk` and keep `data[position:]` as the next leftover. -/
def calcGo : List (List Nat) → ℚ → List Nat → ℚ
  | [], total, _ => total
  | chunk :: rest, total, leftover =>
    let data := leftover ++ chunk
    let r := scanFrom data 0 total
    calcGo rest r.1 (data.drop r.2)

/-- Embedding of `Radio.calculate_buffer_duration`. -/
def calculate_buffer_duration (buffer : List (List Nat)) : ℚ :=
  calcGo buffer 0 []

/-- Inner loop of `Radio.find_chunk_by_time`: same walk as `scanGo` but after
counting a frame it returns the frame's position when the accumulated duration
first reaches the target (`if total_duration >= target_time: return i, position`).
Result is `(found position, total_duration, position)` at return or loop exit. -/
def findInner : Nat → List Nat → Nat → ℚ → ℚ → Option Nat × ℚ × Nat
  | 0, _, position, total, _ => (none, total, position)
  | fuel + 1, data, position, total, target =>
    if position + 4 ≤ data.length then
      match parse_mp3_header ((data.drop position).take 4) with
      | some (_, _, frame_size, duration) =>
          let total' := total + duration
          if target ≤ total' then (some position, total', position)
          else findInner fuel data (position + frame_size) total' target
      | none => findInner fuel data (position + 1) total target
    else (none, total, position)

/-- Block loop of `Radio.find_chunk_by_time`; `none` models the
`ValueError("Target time exceeds total buffer duration.")` raised after the
last chunk. -/
def findGo : List (List Nat) → Nat → ℚ → List Nat → ℚ → Option (Nat × Nat)
  | [], _, _, _, _ => none
  | chunk :: rest, i, total, leftover, target =>
    let data := leftover ++ chunk
    match findInner data.length data 0 total target with
    | (some position, _, _) => some (i, position)
    | (none, total', p) => findGo rest (i + 1) total' (data.drop p) target

/-- Embedding of `Radio.find_chunk_by_time` (target time as an exact rational). -/
def find_chunk_by_time (buffer : List (List Nat)) (target_time : ℚ) : Option (Nat × Nat) :=
  findGo buffer 0 0 [] target_time

/-- Instrumented form of the inner scan: the `(position, duration)` of every
frame the scan of one block parses, in scan order. Used only to state what the
scans compute; it is not part of the source. -/
def recsInner : Nat → List Nat → Nat → List (Nat × ℚ)
  | 0, _, _ => []
  | fuel + 1, data, position =>
    if position + 4 ≤ data.length then
      match parse_mp3_header ((data.drop position).take 4) with
      | some (_, _, frame_size, duration) =>
          (position, duration) :: recsInner fuel data (position + frame_size)
      | none => recsInner fuel data (position + 1)
    else []

/-- Instrumented form of the block loop: every `(block index, position in
leftover-extended block, duration)` the buffer scan parses, in scan order. -/
def recsGo : List (List Nat) → Nat → List Nat → List (Nat × Nat × ℚ)
  | [], _, _ => []
  | chunk :: rest, i, leftover =>
    let data := leftover ++ chunk
    (recsInner data.length data 0).map (fun pd => (i, pd.1, pd.2)) ++
      recsGo rest (i + 1) (data.drop (scanFrom data 0 0).2)

/-- All frames of the buffer in scan order, with their block and offset. -/
def scanRecords (buffer : List (List Nat)) : List (Nat × Nat × ℚ) :=
  recsGo buffer 0 []

/-- First record at which the running duration reaches the target, with the
running total, over one block's records. -/
def firstHit : List (Nat × ℚ) → ℚ → ℚ → Option (Nat × ℚ)
  | [], _, _ => none
  | (p, d) :: rest, total, target =>
    if target ≤ total + d then some (p, total + d) else firstHit rest (total + d) target

/-- First record at which the running duration reaches the target, over the
whole buffer's records. -/
def firstHitG : List (Nat × Nat × ℚ) → ℚ → ℚ → Option (Nat × Nat)
  | [], _, _ => none
  | (i, p, d) :: rest, total, target =>
    if target ≤ total + d then some (i, p) else firstHitG rest (total + d) target

/-- Sum of the durations of one block's records. -/
def sumD (recs : List (Nat × ℚ)) : ℚ := (recs.map Prod.snd).sum

/-- Sum of the durations of the whole buffer's records. -/
def sumDG (recs : List (Nat × Nat × ℚ)) : ℚ := (recs.map (fun r => r.2.2)).sum

/-- Checks, along the same block walk as `calculate_buffer_duration`, that no
frame-size jump ever overshoots the end of its scan window (`position` at loop
exit stays within `data`). When this fails, Python's `leftover = data[position:]`
silently becomes `b''` and the overshot bytes are rescanned from the start of
the next chunk. -/
def chainOkGo : List (List Nat) → List Nat → Bool
  | [], _ => true
  | chunk :: rest, leftover =>
    let data := leftover ++ chunk
    let r := scanFrom data 0 0
    decide (r.2 ≤ data.length) && chainOkGo rest (data.drop r.2)

/-- Overshoot-freedom of a whole buffer scan. -/
def chainOk (buffer : List (List Nat)) : Bool := chainOkGo buffer []

/-- A byte list is a single well-formed MP3 frame: its first four bytes parse
and the declared frame size is its exact length. -/
def isValidFrame (f : List Nat) : Bool :=
  match parse_mp3_header (f.take 4) with
  | some (_, _, frame_size, _) => frame_size == f.length
  | none => false

/-- Declared duration of a frame (0 when the header does not parse). -/
def frameDur (f : List Nat) : ℚ :=
  match parse_mp3_header (f.take 4) with
  | some (_, _, _, duration) => duration
  | none => 0

/-- Fixed transport block size (`self.chunk_size = 90000`). -/
def chunk_size : Nat := 90000

/-- Chunking loop of `Radio.add_track` (`f.read(chunk_size)` until empty):
splits a file's bytes into successive blocks of at most `c` bytes. `f.read(0)`
returns `b''` immediately, so chunk size 0 yields no blocks. -/
def chunkFileGo : Nat → Nat → List Nat → List (List Nat)
  | 0, _, _ => []
  | _ + 1, _, [] => []
  | fuel + 1, c, x :: xs =>
    if c = 0 then []
    else (x :: xs).take c :: chunkFileGo fuel c ((x :: xs).drop c)

/-- Blocks appended by one `Radio.add_track` call on a file with these bytes. -/
def chunkFile (c : Nat) (data : List Nat) : List (List Nat) :=
  chunkFileGo data.length c data

/-- Embedding of `Radio.add_track`: the file's content (read through the
filesystem model) is chunked and the blocks extend the buffer. -/
def add_track (content : List Nat) (buffer : List (List Nat)) : List (List Nat) :=
  buffer ++ chunkFile chunk_size content

/-- A track of the playlist. The status payload serializes the whole record;
beyond `length` (`track["length"]`, the only field the engine reads) the
fields are opaque identifiers. -/
structure Track where
  title : Nat
  author : Nat
  length : Nat
  path : Nat
  deriving DecidableEq

/-- Embedding of `bytes.split(b" ")`: split at every single space byte,
keeping empty pieces. -/
def splitSpaceGo : List Nat → List Nat → List (List Nat)
  | [], cur => [cur.reverse]
  | b :: bs, cur =>
    if b = 32 then cur.reverse :: splitSpaceGo bs []
    else splitSpaceGo bs (b :: cur)

/-- Tokens of a request, as `client_data.split(b" ")` produces them. -/
def splitSpace (bs : List Nat) : List (List Nat) := splitSpaceGo bs []

/-- Replies the `TADD` branch of `Radio.main` can send. -/
inductive TaddReply
  | tadd
  | auth
  | nfnd
  | invl
  deriving DecidableEq

/-- Embedding of the `TADD` branch of `Radio.main` (lines 339-363). `fs` is
the filesystem: `fs path = some content` iff `os.path.exists` succeeds, in
which case `open(path).read()` yields `content`. Reading `client_data[1]` and
`client_data[2]` under `try/except IndexError` is the same as requiring both
tokens to exist. Returns the reply and the buffer and playlist after the
request. -/
def tadd_handle (secret : List Nat) (fs : List Nat → Option (List Nat))
    (buffer : List (List Nat)) (playlist : List Track) (client_data : List Nat) :
    TaddReply × List (List Nat) × List Track :=
  let tokens := splitSpace client_data
  match tokens.get? 1, tokens.get? 2 with
  | some authkey, some track =>
    if authkey = secret then
      match fs track with
      | none => (TaddReply.nfnd, buffer, playlist)
      | some content => (TaddReply.tadd, add_track content buffer, playlist)
    else (TaddReply.auth, buffer, playlist)
  | _, _ => (TaddReply.invl, buffer, playlist)

/-- Walk of `Radio.status`: accumulate `track["length"]` and stop at the first
track whose running total reaches `current_time`. -/
def statusGo : List Track → Nat → Nat → Option Track
  | [], _, _ => none
  | track :: rest, current_time, track_time =>
    let track_time' := track_time + track.length
    if current_time ≤ track_time' then some track
    else statusGo rest current_time track_time'

/-- Sum of the declared lengths of a playlist. -/
def sumLen (playlist : List Track) : Nat := (playlist.map Track.length).sum

/-- Little-endian decimal digits of a positive number (fuel ≥ digit count). -/
def digitsRev : Nat → Nat → List Nat
  | 0, _ => []
  | fuel + 1, n => if n = 0 then [] else n % 10 :: digitsRev fuel (n / 10)

/-- ASCII bytes of the decimal representation of a number. -/
def decRepr (n : Nat) : List Nat :=
  if n = 0 then [48] else ((digitsRev n n).reverse).map (fun d => 48 + d)

/-- Embedding of Python's `f"{n:04d}"`: the decimal representation left-padded
with ASCII zeros to at least four characters. -/
def fmt04 (n : Nat) : List Nat :=
  let s := decRepr n
  if s.length < 4 then List.replicate (4 - s.length) 48 ++ s else s

/-- The literal `b"NFND"`. -/
def nfndBytes : List Nat := [78, 70, 78, 68]

/-- Embedding of `Radio.status`: the bytes sent to the client. `dumps` models
`json.dumps({"radio_time": ..., "uptime": ..., "current": track})`, which is
outside the engine. -/
def status (dumps : Nat → Nat → Track → List Nat) (playlist : List Track)
    (radio_time up_time : Nat) : List Nat :=
  match statusGo playlist radio_time 0 with
  | some track =>
    let final := dumps radio_time up_time track
    fmt04 final.length ++ final
  | none => nfndBytes

/-- Clock state of the `Radio` (`up_time`, `radio_time`). -/
structure ClockState where
  up_time : Nat
  radio_time : Nat
  deriving DecidableEq

/-- One tick of `Radio.producer`'s loop, against the buffer length computed
once before the loop started. -/
def producerTick (buffer_length : ℚ) (s : ClockState) : ClockState :=
  ⟨s.up_time + 1,
   if ¬((s.radio_time + 1 : ℚ) > buffer_length) then s.radio_time + 1 else 0⟩

/-- `n` ticks of `Radio.producer`'s loop. -/
def producerRun (buffer_length : ℚ) : ClockState → Nat → ClockState
  | s, 0 => s
  | s, n + 1 => producerRun buffer_length (producerTick buffer_length s) n

/-- A watchdog registry entry (`{"id": id, "heartbeat": t}`); session ids are
opaque, timestamps are rationals, and `-1` is the "not started yet" sentinel. -/
structure Proc where
  id : Nat
  heartbeat : ℚ
  deriving DecidableEq

/-- The death threshold (`self.death = 100`). -/
def death : ℚ := 100

/-- Embedding of `Watchdog.new_process`. -/
def new_process (ps : List Proc) (id : Nat) : List Proc := ps ++ [⟨id, -1⟩]

/-- Embedding of `Watchdog.beat`: Python filters the registry for the id and
indexes `[0]`, so the first matching entry is updated; an absent id raises
`IndexError`, modeled as `none`. -/
def beat : List Proc → Nat → ℚ → Option (List Proc)
  | [], _, _ => none
  | p :: rest, id, now =>
    if p.id = id then some (⟨p.id, now⟩ :: rest)
    else (beat rest id now).map (fun ps => p :: ps)

/-- First registry entry with the given id, as the `[... ][0]` filter selects. -/
def lookupProc (ps : List Proc) (id : Nat) : Option Proc :=
  ps.find? (fun p => p.id == id)

/-- Embedding of `Watchdog.is_alive`. -/
def is_alive (ps : List Proc) (id : Nat) (now : ℚ) : Bool :=
  match lookupProc ps id with
  | none => false
  | some p =>
    if p.heartbeat = -1 then true
    else if now - p.heartbeat > death then false
    else true

/-- One pass of `Watchdog.watch`'s reap sweep. Python iterates the list by
index while `remove_process` shifts it, so after a removal the iterator's next
step lands two (original) positions further; the index-with-removal recursion
reproduces that. -/
def sweepGo : Nat → List Proc → Nat → ℚ → List Proc
  | 0, ps, _, _ => ps
  | fuel + 1, ps, k, now =>
    if h : k < ps.length then
      let p := ps.get ⟨k, h⟩
      if is_alive ps p.id now then sweepGo fuel ps (k + 1) now
      else sweepGo fuel (ps.eraseIdx k) (k + 1) now
    else ps

/-- One reap sweep over the registry at time `now`. -/
def sweep (ps : List Proc) (now : ℚ) : List Proc := sweepGo ps.length ps 0 now

/-- The literal `b"RECV"`. -/
def recvBytes : List Nat := [0x52, 0x45, 0x43, 0x56]

/-- Prefix test used by the substring check. -/
def startsWithSeq : List Nat → List Nat → Bool
  | [], _ => true
  | _ :: _, [] => false
  | a :: as, b :: bs => a == b && startsWithSeq as bs

/-- Embedding of Python's `needle in haystack` on bytes (substring test). -/
def containsSeq (needle : List Nat) : List Nat → Bool
  | [] => needle.isEmpty
  | b :: bs => startsWithSeq needle (b :: bs) || containsSeq needle bs

/-- Outcome of a `Radio.consumer` run: blocks sent in order, whether the loop
exited, whether the handler called `client.close()`, and whether its watchdog
entry was removed. -/
structure ConsResult where
  sent : List (List Nat)
  exited : Bool
  socketClosed : Bool
  watchdogRemoved : Bool
  deriving DecidableEq

/-- Embedding of `Radio.consumer`'s delivery loop for one session. Each list
element is one `client.recv(4)` outcome: `some resp` for received bytes,
`none` for `ConnectionResetError`. The loop guard `self.running and
self.watchdog.is_alive(id)` is modeled as holding (no concurrent shutdown or
reaper interference), so with the event list exhausted the session is still
blocked in `recv` (`exited := false`); after a break the `remove_process`
succeeds (the entry is present), so the trailing `except IndexError:
client.close()` does not run. -/
def consumerGo (buffer : List (List Nat)) : Nat → List (List Nat) →
    List (Option (List Nat)) → ConsResult
  | i, sent, [] =>
    let i' := if buffer.length ≤ i then 0 else i
    ⟨sent ++ [buffer.getD i' []], false, false, false⟩
  | i, sent, ack :: rest =>
    let i' := if buffer.length ≤ i then 0 else i
    let sent' := sent ++ [buffer.getD i' []]
    match ack with
    | none => ⟨sent', true, false, true⟩
    | some resp =>
      if containsSeq recvBytes resp then consumerGo buffer (i' + 1) sent' rest
      else ⟨sent', true, true, true⟩

/-- The blocks a consumer cursor starting at `i` delivers in `n` sends,
wrapping to block 0 at the end of the buffer. -/
def cursorWalk (buffer : List (List Nat)) : Nat → Nat → List (List Nat)
  | _, 0 => []
  | i, n + 1 =>
    let i' := if buffer.length ≤ i then 0 else i
    buffer.getD i' [] :: cursorWalk buffer (i' + 1) n

/-- One well-formed MP3 frame: 32 kbps, 48 kHz, no padding, frame size 96,
duration 1152/48000 s; used as concrete input for witnesses. -/
def demoFrame : List Nat := [255, 251, 20, 0] ++ List.replicate 92 0

/-- A well-formed 96-byte MP3 frame whose body happens to contain the byte
pattern of a valid frame header at offset 50. A continuous scan jumps over the
body, but when the frame's body straddles a block boundary at offset 50 the
block scan rescans the body and miscounts the pattern as a second frame. -/
def cexFrame : List Nat :=
  [255, 251, 20, 0] ++ List.replicate 46 0 ++ [255, 251, 20, 0] ++ List.replicate 42 0

/-- Concrete filesystem for witnesses: path `[112]` (`"p"`) holds a 3-byte
file, nothing else exists. -/
def demoFs (path : List Nat) : Option (List Nat) :=
  if path = [112] then some [1, 2, 3] else none

section ParseFacts

theorem bitrates_getD_bound {i b : Nat} (h : bitrates.getD i none = some b) :
    32 ≤ b ∧ b ≤ 320 := by
  by_cases hi : i < 16
  · interval_cases i <;> simp [bitrates, List.getD] at h <;> omega
  · rw [List.getD_eq_default] at h
    · exact absurd h (by simp)
    · simp [bitrates]; omega

theorem sample_rates_getD_bound {i s : Nat} (h : sample_rates.getD i none = some s) :
    32000 ≤ s ∧ s ≤ 48000 := by
  by_cases hi : i < 4
  · interval_cases i <;> simp [sample_rates, List.getD] at h <;> omega
  · rw [List.getD_eq_default] at h
    · exact absurd h (by simp)
    · simp [sample_rates]; omega

/-- Every successfully parsed header yields a frame at least 96 bytes long and
a strictly positive duration. -/
theorem parse_mp3_header_facts {h : List Nat} {b sr fs : Nat} {d : ℚ}
    (hp : parse_mp3_header h = some (b, sr, fs, d)) :
    32 ≤ b ∧ 32000 ≤ sr ∧ sr ≤ 48000 ∧ 96 ≤ fs ∧ d = 1152 / (sr : ℚ) ∧ 0 < d := by
  simp only [parse_mp3_header] at hp
  split at hp
  · rcases hbr : bitrates.getD ((h.getD 2 0 >>> 4) &&& 0x0F) none with _ | b'
    · rw [hbr] at hp; simp at hp
    rcases hsr : sample_rates.getD ((h.getD 2 0 >>> 2) &&& 0x03) none with _ | s'
    · rw [hbr, hsr] at hp; simp at hp
    rw [hbr, hsr] at hp
    simp only [Option.some.injEq, Prod.mk.injEq] at hp
    obtain ⟨hb, hs, hfs, hd⟩ := hp
    obtain ⟨hb1, hb2⟩ := bitrates_getD_bound hbr
    obtain ⟨hs1, hs2⟩ := sample_rates_getD_bound hsr
    subst hb hs hfs hd
    have hsrQ : (0 : ℚ) < (s' : ℚ) := by
      exact_mod_cast Nat.pos_of_ne_zero (by omega)
    refine ⟨hb1, hs1, hs2, ?_, rfl, div_pos (by norm_num) hsrQ⟩
    have h1 : 96 * s' ≤ 144 * b' * 1000 := by nlinarith
    have h2 := (Nat.le_div_iff_mul_le (k := s') (by omega)).2 h1
    omega
  · exact absurd hp (by simp)

end ParseFacts

section ScanFacts

theorem scanGo_fuel_succ :
    ∀ (fuel : Nat) (data : List Nat) (pos : Nat) (total : ℚ),
      data.length ≤ pos + 3 + fuel →
      scanGo (fuel + 1) data pos total = scanGo fuel data pos total := by
  intro fuel
  induction fuel with
  | zero =>
    intro data pos total h
    simp only [scanGo]
    rw [if_neg (by omega)]
  | succ fuel ih =>
    intro data pos total h
    by_cases hc : pos + 4 ≤ data.length
    · rcases hp : parse_mp3_header ((data.drop pos).take 4) with _ | ⟨b, sr, fs, d⟩
      · conv_lhs => rw [scanGo]
        conv_rhs => rw [scanGo]
        rw [if_pos hc, if_pos hc, hp]
        exact ih data (pos + 1) total (by omega)
      · have hfs := (parse_mp3_header_facts hp).2.2.2.1
        conv_lhs => rw [scanGo]
        conv_rhs => rw [scanGo]
        rw [if_pos hc, if_pos hc, hp]
        exact ih data (pos + fs) (total + d) (by omega)
    · conv_lhs => rw [scanGo]
      conv_rhs => rw [scanGo]
      rw [if_neg hc, if_neg hc]

theorem scanGo_fuel_add :
    ∀ (k fuel : Nat) (data : List Nat) (pos : Nat) (total : ℚ),
      data.length ≤ pos + 3 + fuel →
      scanGo (fuel + k) data pos total = scanGo fuel data pos total := by
  intro k
  induction k with
  | zero => intro fuel data pos total _; rfl
  | succ k ih =>
    intro fuel data pos total h
    have : fuel + (k + 1) = (fuel + k) + 1 := by omega
    rw [this, scanGo_fuel_succ (fuel + k) data pos total (by omega), ih fuel data pos total h]

theorem scanGo_fuel_irrel (f g : Nat) (data : List Nat) (pos : Nat) (total : ℚ)
    (hf : data.length ≤ pos + 3 + f) (hg : data.length ≤ pos + 3 + g) :
    scanGo f data pos total = scanGo g data pos total := by
  rcases Nat.le_total f g with h | h
  · have : g = f + (g - f) := by omega
    rw [this, scanGo_fuel_add (g - f) f data pos total hf]
  · have : f = g + (f - g) := by omega
    rw [this, scanGo_fuel_add (f - g) g data pos total hg]

theorem scanFrom_eq_scanGo (fuel : Nat) (data : List Nat) (pos : Nat) (total : ℚ)
    (h : data.length ≤ pos + 3 + fuel) :
    scanFrom data pos total = scanGo fuel data pos total :=
  scanGo_fuel_irrel data.length fuel data pos total (by omega) h

theorem scanFrom_exit (data : List Nat) (pos : Nat) (total : ℚ)
    (hc : data.length < pos + 4) : scanFrom data pos total = (total, pos) := by
  unfold scanFrom
  rcases hl : data.length with _ | n
  · rfl
  · rw [scanGo]
    rw [if_neg (by omega)]

theorem scanFrom_step_none (data : List Nat) (pos : Nat) (total : ℚ)
    (hc : pos + 4 ≤ data.length)
    (hp : parse_mp3_header ((data.drop pos).take 4) = none) :
    scanFrom data pos total = scanFrom data (pos + 1) total := by
  unfold scanFrom
  rw [show data.length = (data.length - 1) + 1 by omega]
  conv_lhs => rw [scanGo]
  rw [if_pos hc, hp]
  exact scanGo_fuel_irrel _ _ data (pos + 1) total (by omega) (by omega)

theorem scanFrom_step_some (data : List Nat) (pos : Nat) (total : ℚ)
    {b sr fs : Nat} {d : ℚ}
    (hc : pos + 4 ≤ data.length)
    (hp : parse_mp3_header ((data.drop pos).take 4) = some (b, sr, fs, d)) :
    scanFrom data pos total = scanFrom data (pos + fs) (total + d) := by
  have hfs := (parse_mp3_header_facts hp).2.2.2.1
  unfold scanFrom
  rw [show data.length = (data.length - 1) + 1 by omega]
  conv_lhs => rw [scanGo]
  rw [if_pos hc, hp]
  exact scanGo_fuel_irrel _ _ data (pos + fs) (total + d) (by omega) (by omega)

theorem scanGo_total_mono :
    ∀ (fuel : Nat) (data : List Nat) (pos : Nat) (total : ℚ),
      total ≤ (scanGo fuel data pos total).1 := by
  intro fuel
  induction fuel with
  | zero => intro data pos total; exact le_refl _
  | succ fuel ih =>
    intro data pos total
    rw [scanGo]
    by_cases hc : pos + 4 ≤ data.length
    · rw [if_pos hc]
      rcases hp : parse_mp3_header ((data.drop pos).take 4) with _ | ⟨b, sr, fs, d⟩
      · exact ih data (pos + 1) total
      · have hd := (parse_mp3_header_facts hp).2.2.2.2.2
        calc total ≤ total + d := by linarith
          _ ≤ _ := ih data (pos + fs) (total + d)
    · rw [if_neg hc]

theorem scanGo_pos_final :
    ∀ (fuel : Nat) (data : List Nat) (pos : Nat) (total : ℚ),
      data.length ≤ pos + 3 + fuel →
      data.length < (scanGo fuel data pos total).2 + 4 := by
  intro fuel
  induction fuel with
  | zero => intro data pos total h; simp only [scanGo]; omega
  | succ fuel ih =>
    intro data pos total h
    rw [scanGo]
    by_cases hc : pos + 4 ≤ data.length
    · rw [if_pos hc]
      rcases hp : parse_mp3_header ((data.drop pos).take 4) with _ | ⟨b, sr, fs, d⟩
      · exact ih data (pos + 1) total (by omega)
      · have hfs := (parse_mp3_header_facts hp).2.2.2.1
        exact ih data (pos + fs) (total + d) (by omega)
    · rw [if_neg hc]; omega

theorem scanGo_acc :
    ∀ (fuel : Nat) (data : List Nat) (pos : Nat) (total : ℚ),
      (scanGo fuel data pos total).1 = total + (scanGo fuel data pos 0).1
      ∧ (scanGo fuel data pos total).2 = (scanGo fuel data pos 0).2 := by
  intro fuel
  induction fuel with
  | zero => intro data pos total; simp [scanGo]
  | succ fuel ih =>
    intro data pos total
    simp only [scanGo]
    by_cases hc : pos + 4 ≤ data.length
    · simp only [if_pos hc]
      rcases hp : parse_mp3_header ((data.drop pos).take 4) with _ | ⟨b, sr, fs, d⟩ <;>
        simp only [hp]
      · exact ih data (pos + 1) total
      · constructor
        · rw [(ih data (pos + fs) (total + d)).1, (ih data (pos + fs) (0 + d)).1]
          ring
        · rw [(ih data (pos + fs) (total + d)).2, (ih data (pos + fs) (0 + d)).2]
    · simp only [if_neg hc]
      simp

theorem slice_append (data rest : List Nat) (pos : Nat) (h : pos + 4 ≤ data.length) :
    (((data ++ rest).drop pos).take 4) = ((data.drop pos).take 4) := by
  rw [List.drop_append_of_le_length (by omega)]
  rw [List.take_append_of_le_length (by simp; omega)]

theorem scanGo_append :
    ∀ (fuel : Nat) (data rest : List Nat) (pos : Nat) (total : ℚ),
      data.length ≤ pos + 3 + fuel →
      scanFrom (data ++ rest) pos total =
        scanFrom (data ++ rest) (scanGo fuel data pos total).2 (scanGo fuel data pos total).1 := by
  intro fuel
  induction fuel with
  | zero => intro data rest pos total h; simp [scanGo]
  | succ fuel ih =>
    intro data rest pos total h
    by_cases hc : pos + 4 ≤ data.length
    · have hc2 : pos + 4 ≤ (data ++ rest).length := by
        rw [List.length_append]; omega
      have hsl := slice_append data rest pos hc
      rcases hp : parse_mp3_header ((data.drop pos).take 4) with _ | ⟨b, sr, fs, d⟩
      · have hstep := scanFrom_step_none (data ++ rest) pos total hc2 (by rw [hsl]; exact hp)
        have hrec : scanGo (fuel + 1) data pos total = scanGo fuel data (pos + 1) total := by
          conv_lhs => rw [scanGo]
          rw [if_pos hc, hp]
        rw [hstep, hrec]
        exact ih data rest (pos + 1) total (by omega)
      · have hfs := (parse_mp3_header_facts hp).2.2.2.1
        have hstep := scanFrom_step_some (data ++ rest) pos total hc2 (by rw [hsl]; exact hp)
        have hrec : scanGo (fuel + 1) data pos total = scanGo fuel data (pos + fs) (total + d) := by
          conv_lhs => rw [scanGo]
          rw [if_pos hc, hp]
        rw [hstep, hrec]
        exact ih data rest (pos + fs) (total + d) (by omega)
    · have hrec : scanGo (fuel + 1) data pos total = (total, pos) := by
        conv_lhs => rw [scanGo]
        rw [if_neg hc]
      rw [hrec]

theorem scanGo_shift :
    ∀ (fuel : Nat) (data : List Nat) (pos : Nat) (total : ℚ),
      data.length ≤ pos + 3 + fuel →
      (scanGo fuel data pos total).1 = total + (scanFrom (data.drop pos) 0 0).1 := by
  intro fuel
  induction fuel with
  | zero =>
    intro data pos total h
    rw [scanFrom_exit _ _ 0 (by simp; omega)]
    simp [scanGo]
  | succ fuel ih =>
    intro data pos total h
    by_cases hc : pos + 4 ≤ data.length
    · have hlen : (data.drop pos).length = data.length - pos := by simp
      rcases hp : parse_mp3_header ((data.drop pos).take 4) with _ | ⟨b, sr, fs, d⟩
      · have hrec : scanGo (fuel + 1) data pos total = scanGo fuel data (pos + 1) total := by
          conv_lhs => rw [scanGo]
          rw [if_pos hc, hp]
        have hstep := scanFrom_step_none (data.drop pos) 0 0 (by omega)
          (by rw [List.drop_zero]; exact hp)
        rw [hrec, ih data (pos + 1) total (by omega), hstep]
        rw [scanFrom_eq_scanGo fuel (data.drop pos) 1 0 (by omega)]
        rw [ih (data.drop pos) 1 0 (by omega)]
        rw [List.drop_drop]
        ring_nf
      · have hfs := (parse_mp3_header_facts hp).2.2.2.1
        have hrec : scanGo (fuel + 1) data pos total = scanGo fuel data (pos + fs) (total + d) := by
          conv_lhs => rw [scanGo]
          rw [if_pos hc, hp]
        have hstep := scanFrom_step_some (data.drop pos) 0 0 (by omega)
          (by rw [List.drop_zero]; exact hp)
        rw [hrec, ih data (pos + fs) (total + d) (by omega), hstep]
        rw [scanFrom_eq_scanGo fuel (data.drop pos) (0 + fs) (0 + d) (by simp; omega)]
        rw [ih (data.drop pos) (0 + fs) (0 + d) (by simp; omega)]
        rw [List.drop_drop]
        rw [show pos + (0 + fs) = pos + fs by omega]
        ring_nf
    · have hrec : scanGo (fuel + 1) data pos total = (total, pos) := by
        conv_lhs => rw [scanGo]
        rw [if_neg hc]
      rw [hrec, scanFrom_exit _ _ 0 (by simp; omega)]
      simp

end ScanFacts

section FindFacts

theorem scanGo_eq_sum_recs :
    ∀ (fuel : Nat) (data : List Nat) (pos : Nat) (total : ℚ),
      (scanGo fuel data pos total).1 = total + sumD (recsInner fuel data pos) := by
  intro fuel
  induction fuel with
  | zero => intro data pos total; simp [scanGo, recsInner, sumD]
  | succ fuel ih =>
    intro data pos total
    simp only [scanGo, recsInner]
    by_cases hc : pos + 4 ≤ data.length
    · simp only [if_pos hc]
      rcases hp : parse_mp3_header ((data.drop pos).take 4) with _ | ⟨b, sr, fs, d⟩ <;>
        simp only [hp]
      · exact ih data (pos + 1) total
      · rw [ih data (pos + fs) (total + d)]
        simp [sumD]
        ring
    · simp [if_neg hc, sumD]

theorem recsInner_pos :
    ∀ (fuel : Nat) (data : List Nat) (pos : Nat),
      ∀ pd ∈ recsInner fuel data pos, 0 < pd.2 := by
  intro fuel
  induction fuel with
  | zero => intro data pos pd h; simp [recsInner] at h
  | succ fuel ih =>
    intro data pos pd h
    rw [recsInner] at h
    by_cases hc : pos + 4 ≤ data.length
    · rw [if_pos hc] at h
      rcases hp : parse_mp3_header ((data.drop pos).take 4) with _ | ⟨b, sr, fs, d⟩ <;>
        rw [hp] at h
      · exact ih data (pos + 1) pd h
      · rcases List.mem_cons.1 h with h1 | h2
        · rw [h1]
          exact (parse_mp3_header_facts hp).2.2.2.2.2
        · exact ih data (pos + fs) pd h2
    · rw [if_neg hc] at h; simp at h

theorem findInner_eq :
    ∀ (fuel : Nat) (data : List Nat) (pos : Nat) (total target : ℚ),
      findInner fuel data pos total target =
        match firstHit (recsInner fuel data pos) total target with
        | some qt => (some qt.1, qt.2, qt.1)
        | none => (none, total + sumD (recsInner fuel data pos), (scanGo fuel data pos total).2) := by
  intro fuel
  induction fuel with
  | zero => intro data pos total target; simp [findInner, recsInner, firstHit, scanGo, sumD]
  | succ fuel ih =>
    intro data pos total target
    by_cases hc : pos + 4 ≤ data.length
    · rcases hp : parse_mp3_header ((data.drop pos).take 4) with _ | ⟨b, sr, fs, d⟩
      · simp only [findInner, recsInner, scanGo, if_pos hc, hp]
        exact ih data (pos + 1) total target
      · simp only [findInner, recsInner, scanGo, if_pos hc, hp, firstHit]
        by_cases ht : target ≤ total + d
        · simp [if_pos ht]
        · simp only [if_neg ht]
          have hs : sumD ((pos, d) :: recsInner fuel data (pos + fs)) =
              d + sumD (recsInner fuel data (pos + fs)) := by simp [sumD]
          simp only [hs, ← add_assoc]
          exact ih data (pos + fs) (total + d) target
    · simp [findInner, recsInner, scanGo, if_neg hc, firstHit, sumD]

theorem firstHitG_append_map :
    ∀ (recs : List (Nat × ℚ)) (i : Nat) (rest2 : List (Nat × Nat × ℚ)) (total target : ℚ),
      firstHitG ((recs.map fun pd => (i, pd.1, pd.2)) ++ rest2) total target =
        match firstHit recs total target with
        | some qt => some (i, qt.1)
        | none => firstHitG rest2 (total + sumD recs) target := by
  intro recs
  induction recs with
  | nil => intro i rest2 total target; simp [firstHit, sumD]
  | cons pd rest ih =>
    intro i rest2 total target
    rcases pd with ⟨p, d⟩
    simp only [List.map_cons, List.cons_append, firstHitG, firstHit]
    by_cases ht : target ≤ total + d
    · simp [if_pos ht]
    · simp only [if_neg ht]
      have hs : sumD ((p, d) :: rest) = d + sumD rest := by simp [sumD]
      simp only [hs, ← add_assoc]
      exact ih i rest2 (total + d) target

theorem findGo_eq :
    ∀ (blocks : List (List Nat)) (i : Nat) (total : ℚ) (leftover : List Nat) (target : ℚ),
      findGo blocks i total leftover target = firstHitG (recsGo blocks i leftover) total target := by
  intro blocks
  induction blocks with
  | nil => intro i total leftover target; rfl
  | cons chunk rest ih =>
    intro i total leftover target
    simp only [findGo, recsGo]
    rw [findInner_eq]
    rw [firstHitG_append_map]
    rcases hfh : firstHit (recsInner (leftover ++ chunk).length (leftover ++ chunk) 0) total target
      with _ | qt
    · simp only
      rw [ih]
      have h2 : (scanGo (leftover ++ chunk).length (leftover ++ chunk) 0 total).2 =
          (scanFrom (leftover ++ chunk) 0 0).2 :=
        (scanGo_acc (leftover ++ chunk).length (leftover ++ chunk) 0 total).2
      rw [h2]
    · simp

theorem calcGo_eq_sum :
    ∀ (blocks : List (List Nat)) (i : Nat) (total : ℚ) (leftover : List Nat),
      calcGo blocks total leftover = total + sumDG (recsGo blocks i leftover) := by
  intro blocks
  induction blocks with
  | nil => intro i total leftover; simp [calcGo, recsGo, sumDG]
  | cons chunk rest ih =>
    intro i total leftover
    simp only [calcGo, recsGo]
    rw [ih (i + 1)]
    have h1 : (scanFrom (leftover ++ chunk) 0 total).1 =
        total + sumD (recsInner (leftover ++ chunk).length (leftover ++ chunk) 0) :=
      scanGo_eq_sum_recs (leftover ++ chunk).length (leftover ++ chunk) 0 total
    have h2 : (scanFrom (leftover ++ chunk) 0 total).2 =
        (scanFrom (leftover ++ chunk) 0 0).2 :=
      (scanGo_acc (leftover ++ chunk).length (leftover ++ chunk) 0 total).2
    rw [h1, h2]
    simp only [sumDG, sumD, List.map_append, List.sum_append, List.map_map]
    have hcomp : ((fun r : Nat × Nat × ℚ => r.2.2) ∘ fun pd : Nat × ℚ => (i, pd.1, pd.2)) =
        Prod.snd := rfl
    rw [hcomp]
    ring

theorem recsGo_pos :
    ∀ (blocks : List (List Nat)) (i : Nat) (leftover : List Nat),
      ∀ x ∈ recsGo blocks i leftover, 0 < x.2.2 := by
  intro blocks
  induction blocks with
  | nil => intro i leftover x h; simp [recsGo] at h
  | cons chunk rest ih =>
    intro i leftover x h
    rw [recsGo] at h
    rcases List.mem_append.1 h with h1 | h2
    · obtain ⟨pd, hpd, hx⟩ := List.mem_map.1 h1
      rw [← hx]
      exact recsInner_pos _ _ _ pd hpd
    · exact ih (i + 1) _ x h2

theorem sumDG_nonneg {recs : List (Nat × Nat × ℚ)} (h : ∀ x ∈ recs, 0 < x.2.2) :
    0 ≤ sumDG recs := by
  induction recs with
  | nil => simp [sumDG]
  | cons r rest ih =>
    have hr := h r (List.mem_cons_self r rest)
    have hrest : 0 ≤ sumDG rest := ih (fun x hx => h x (List.mem_cons_of_mem r hx))
    simp only [sumDG, List.map_cons, List.sum_cons]
    have : sumDG rest = (rest.map (fun r => r.2.2)).sum := rfl
    rw [this] at hrest
    linarith

theorem firstHitG_none_of_lt :
    ∀ (recs : List (Nat × Nat × ℚ)) (total target : ℚ),
      (∀ x ∈ recs, 0 < x.2.2) → total + sumDG recs < target →
      firstHitG recs total target = none := by
  intro recs
  induction recs with
  | nil => intro total target _ _; rfl
  | cons r rest ih =>
    intro total target hpos hlt
    rcases r with ⟨i, p, d⟩
    have hrest : 0 ≤ sumDG rest :=
      sumDG_nonneg (fun x hx => hpos x (List.mem_cons_of_mem _ hx))
    have hsum : sumDG ((i, p, d) :: rest) = d + sumDG rest := by simp [sumDG]
    rw [firstHitG, if_neg (by rw [hsum] at hlt; push_neg; linarith)]
    exact ih (total + d) target (fun x hx => hpos x (List.mem_cons_of_mem _ hx))
      (by rw [hsum] at hlt; linarith)

theorem firstHitG_none_imp :
    ∀ (recs : List (Nat × Nat × ℚ)) (total target : ℚ),
      firstHitG recs total target = none →
      recs = [] ∨ total + sumDG recs < target := by
  intro recs
  induction recs with
  | nil => intro total target _; exact Or.inl rfl
  | cons r rest ih =>
    intro total target h
    rcases r with ⟨i, p, d⟩
    rw [firstHitG] at h
    by_cases ht : target ≤ total + d
    · rw [if_pos ht] at h; exact absurd h (by simp)
    · rw [if_neg ht] at h
      push_neg at ht
      have hsum : sumDG ((i, p, d) :: rest) = d + sumDG rest := by simp [sumDG]
      rcases ih (total + d) target h with h1 | h2
      · subst h1
        right
        rw [hsum]
        simp only [sumDG, List.map_nil, List.sum_nil]
        linarith
      · right
        rw [hsum]
        linarith

theorem firstHitG_some_spec :
    ∀ (recs : List (Nat × Nat × ℚ)) (total target : ℚ) (i p : Nat),
      firstHitG recs total target = some (i, p) →
      ∃ k d, recs.get? k = some (i, p, d)
        ∧ target ≤ total + sumDG (recs.take (k + 1))
        ∧ ∀ j < k, total + sumDG (recs.take (j + 1)) < target := by
  intro recs
  induction recs with
  | nil => intro total target i p h; exact absurd h (by simp [firstHitG])
  | cons r rest ih =>
    intro total target i p h
    rcases r with ⟨i0, p0, d0⟩
    rw [firstHitG] at h
    by_cases ht : target ≤ total + d0
    · rw [if_pos ht] at h
      simp only [Option.some.injEq, Prod.mk.injEq] at h
      refine ⟨0, d0, ?_, ?_, ?_⟩
      · simp [h.1, h.2]
      · simp [sumDG]; linarith
      · intro j hj; omega
    · rw [if_neg ht] at h
      push_neg at ht
      obtain ⟨k, d, hk, hge, hlt⟩ := ih (total + d0) target i p h
      refine ⟨k + 1, d, by simpa using hk, ?_, ?_⟩
      · have : sumDG (((i0, p0, d0) :: rest).take (k + 1 + 1)) =
            d0 + sumDG (rest.take (k + 1)) := by simp [sumDG]
        rw [this]; linarith
      · intro j hj
        rcases j with _ | j'
        · simp [sumDG]; linarith
        · have : sumDG (((i0, p0, d0) :: rest).take (j' + 1 + 1)) =
              d0 + sumDG (rest.take (j' + 1)) := by simp [sumDG]
          rw [this]
          have := hlt j' (by omega)
          linarith

end FindFacts

section DurationFacts

theorem calcGo_chain :
    ∀ (blocks : List (List Nat)) (total : ℚ) (leftover : List Nat),
      leftover.length ≤ 3 → chainOkGo blocks leftover = true →
      calcGo blocks total leftover = total + (scanFrom (leftover ++ blocks.flatten) 0 0).1 := by
  intro blocks
  induction blocks with
  | nil =>
    intro total leftover h3 _
    rw [calcGo, List.flatten_nil, List.append_nil, scanFrom_exit _ _ 0 (by omega)]
    simp
  | cons chunk rest ih =>
    intro total leftover h3 hok
    rw [chainOkGo, Bool.and_eq_true, decide_eq_true_eq] at hok
    obtain ⟨hle, hok2⟩ := hok
    rw [calcGo]
    have hacc1 : (scanFrom (leftover ++ chunk) 0 total).1 =
        total + (scanFrom (leftover ++ chunk) 0 0).1 :=
      (scanGo_acc (leftover ++ chunk).length (leftover ++ chunk) 0 total).1
    have hacc2 : (scanFrom (leftover ++ chunk) 0 total).2 =
        (scanFrom (leftover ++ chunk) 0 0).2 :=
      (scanGo_acc (leftover ++ chunk).length (leftover ++ chunk) 0 total).2
    have hfin : (leftover ++ chunk).length < (scanFrom (leftover ++ chunk) 0 0).2 + 4 :=
      scanGo_pos_final (leftover ++ chunk).length (leftover ++ chunk) 0 0 (by omega)
    have h3' : ((leftover ++ chunk).drop (scanFrom (leftover ++ chunk) 0 0).2).length ≤ 3 := by
      rw [List.length_drop]
      omega
    rw [hacc1, hacc2]
    rw [ih (total + (scanFrom (leftover ++ chunk) 0 0).1) _ h3' hok2]
    rw [List.flatten_cons, ← List.append_assoc]
    have happ := scanGo_append (leftover ++ chunk).length (leftover ++ chunk) rest.flatten 0 0
      (by omega)
    rw [show scanGo (leftover ++ chunk).length (leftover ++ chunk) 0 0 =
        scanFrom (leftover ++ chunk) 0 0 from rfl] at happ
    have hshift := scanGo_shift ((leftover ++ chunk) ++ rest.flatten).length
      ((leftover ++ chunk) ++ rest.flatten) (scanFrom (leftover ++ chunk) 0 0).2
      (scanFrom (leftover ++ chunk) 0 0).1 (by rw [List.length_append]; omega)
    rw [List.drop_append_of_le_length hle] at hshift
    have hsf : scanFrom ((leftover ++ chunk) ++ rest.flatten)
        (scanFrom (leftover ++ chunk) 0 0).2 (scanFrom (leftover ++ chunk) 0 0).1 =
        scanGo ((leftover ++ chunk) ++ rest.flatten).length
          ((leftover ++ chunk) ++ rest.flatten) (scanFrom (leftover ++ chunk) 0 0).2
          (scanFrom (leftover ++ chunk) 0 0).1 := rfl
    rw [happ, hsf, hshift]
    ring

theorem scanFrom_frames :
    ∀ (frames : List (List Nat)), (∀ f ∈ frames, isValidFrame f = true) →
      (scanFrom frames.flatten 0 0).1 = (frames.map frameDur).sum := by
  intro frames
  induction frames with
  | nil =>
    intro _
    rw [List.flatten_nil, scanFrom_exit _ _ 0 (by simp)]
    simp
  | cons f rest ih =>
    intro hval
    have hvf := hval f (List.mem_cons_self f rest)
    rcases hp : parse_mp3_header (f.take 4) with _ | ⟨b, sr, fs, d⟩
    · rw [isValidFrame, hp] at hvf
      exact absurd hvf (by simp)
    · rw [isValidFrame, hp] at hvf
      have hfl : fs = f.length := by
        have := hvf
        simpa using this
      have hfs96 := (parse_mp3_header_facts hp).2.2.2.1
      have h4f : 4 ≤ f.length := by omega
      rw [List.flatten_cons]
      have hc : 0 + 4 ≤ (f ++ rest.flatten).length := by
        rw [List.length_append]; omega
      have hsl : (((f ++ rest.flatten).drop 0).take 4) = f.take 4 := by
        rw [List.drop_zero, List.take_append_of_le_length h4f]
      have hstep := scanFrom_step_some (f ++ rest.flatten) 0 0 hc
        (by rw [hsl]; exact hp)
      rw [hstep]
      have hshift := scanGo_shift (f ++ rest.flatten).length (f ++ rest.flatten)
        (0 + fs) (0 + d) (by rw [List.length_append]; omega)
      have hsf : scanFrom (f ++ rest.flatten) (0 + fs) (0 + d) =
          scanGo (f ++ rest.flatten).length (f ++ rest.flatten) (0 + fs) (0 + d) := rfl
      rw [hsf, hshift]
      have hdrop : (f ++ rest.flatten).drop (0 + fs) = rest.flatten := by
        rw [hfl]
        simp
      rw [hdrop, ih (fun g hg => hval g (List.mem_cons_of_mem f hg))]
      rw [List.map_cons, List.sum_cons]
      rw [frameDur, hp]
      ring

end DurationFacts

section IngestFacts

theorem calcGo_ge :
    ∀ (blocks : List (List Nat)) (total : ℚ) (leftover : List Nat),
      total ≤ calcGo blocks total leftover := by
  intro blocks
  induction blocks with
  | nil => intro total leftover; exact le_refl _
  | cons chunk rest ih =>
    intro total leftover
    rw [calcGo]
    calc total ≤ (scanFrom (leftover ++ chunk) 0 total).1 :=
          scanGo_total_mono (leftover ++ chunk).length (leftover ++ chunk) 0 total
      _ ≤ _ := ih _ _

theorem calculate_buffer_duration_nonneg (buffer : List (List Nat)) :
    0 ≤ calculate_buffer_duration buffer :=
  calcGo_ge buffer 0 []

theorem chunkFileGo_length :
    ∀ (fuel c : Nat) (data : List Nat), 1 ≤ c → data.length ≤ fuel →
      (chunkFileGo fuel c data).length = (data.length + c - 1) / c := by
  intro fuel
  induction fuel with
  | zero =>
    intro c data hc h
    have : data = [] := List.eq_nil_of_length_eq_zero (by omega)
    subst this
    rw [chunkFileGo]
    simp only [List.length_nil]
    rw [Nat.div_eq_of_lt (by omega)]
  | succ fuel ih =>
    intro c data hc h
    rcases data with _ | ⟨x, xs⟩
    · rw [chunkFileGo]
      simp only [List.length_nil]
      rw [Nat.div_eq_of_lt (by omega)]
    · rw [chunkFileGo, if_neg (by omega)]
      rw [List.length_cons]
      rw [ih c ((x :: xs).drop c) hc
        (by simp only [List.length_drop, List.length_cons] at h ⊢; omega)]
      rw [List.length_drop]
      have hlen : 1 ≤ (x :: xs).length := by simp
      have hr : (x :: xs).length + c - 1 = ((x :: xs).length - 1) + c := by omega
      rw [hr, Nat.add_div_right _ (by omega)]
      by_cases hcl : c ≤ (x :: xs).length
      · have : (x :: xs).length - c + c - 1 = (x :: xs).length - 1 := by omega
        rw [this]
      · have h0 : (x :: xs).length - c = 0 := by omega
        rw [h0]
        rw [Nat.div_eq_of_lt (by omega : 0 + c - 1 < c)]
        rw [Nat.div_eq_of_lt (by omega : (x :: xs).length - 1 < c)]

theorem chunkFile_length (c : Nat) (data : List Nat) (hc : 1 ≤ c) :
    (chunkFile c data).length = (data.length + c - 1) / c :=
  chunkFileGo_length data.length c data hc (le_refl _)

theorem chunkFileGo_flatten :
    ∀ (fuel c : Nat) (data : List Nat), 1 ≤ c → data.length ≤ fuel →
      (chunkFileGo fuel c data).flatten = data := by
  intro fuel
  induction fuel with
  | zero =>
    intro c data hc h
    have : data = [] := List.eq_nil_of_length_eq_zero (by omega)
    subst this
    rfl
  | succ fuel ih =>
    intro c data hc h
    rcases data with _ | ⟨x, xs⟩
    · rfl
    · rw [chunkFileGo, if_neg (by omega)]
      rw [List.flatten_cons]
      rw [ih c ((x :: xs).drop c) hc
        (by simp only [List.length_drop, List.length_cons] at h ⊢; omega)]
      exact List.take_append_drop c (x :: xs)

end IngestFacts

section ClockFacts

theorem producerTick_up (L : ℚ) (s : ClockState) :
    (producerTick L s).up_time = s.up_time + 1 := rfl

theorem producerTick_radio (L : ℚ) (s : ClockState) :
    (producerTick L s).radio_time =
      if ¬((s.radio_time + 1 : ℚ) > L) then s.radio_time + 1 else 0 := rfl

theorem producerRun_up :
    ∀ (L : ℚ) (n : Nat) (s : ClockState),
      (producerRun L s n).up_time = s.up_time + n := by
  intro L n
  induction n with
  | zero => intro s; rfl
  | succ n ih =>
    intro s
    rw [producerRun, ih, producerTick_up]
    omega

theorem producerRun_radio_le :
    ∀ (L : ℚ), 0 ≤ L → ∀ (n : Nat) (s : ClockState),
      ((s.radio_time : ℚ) ≤ L) → (((producerRun L s n).radio_time : ℚ) ≤ L) := by
  intro L hL n
  induction n with
  | zero => intro s hs; exact hs
  | succ n ih =>
    intro s hs
    rw [producerRun]
    apply ih
    rw [producerTick_radio]
    by_cases hc : ¬((s.radio_time + 1 : ℚ) > L)
    · rw [if_pos hc]
      push_neg at hc
      push_cast
      linarith
    · rw [if_neg hc]
      simpa using hL

end ClockFacts

section StatusFacts

theorem statusGo_none_iff :
    ∀ (pl : List Track) (time acc : Nat),
      statusGo pl time acc = none ↔ (pl = [] ∨ acc + sumLen pl < time) := by
  intro pl
  induction pl with
  | nil => intro time acc; simp [statusGo]
  | cons t rest ih =>
    intro time acc
    rw [statusGo]
    by_cases h : time ≤ acc + t.length
    · rw [if_pos h]
      simp only [sumLen, List.map_cons, List.sum_cons]
      constructor
      · intro hfalse; exact absurd hfalse (by simp)
      · rintro (hfalse | hlt)
        · exact absurd hfalse (by simp)
        · have : sumLen rest = (rest.map Track.length).sum := rfl
          omega
    · rw [if_neg h, ih]
      simp only [sumLen, List.map_cons, List.sum_cons]
      constructor
      · rintro (rfl | hlt)
        · right
          simp only [List.map_nil, List.sum_nil]
          omega
        · right
          have : sumLen rest = (rest.map Track.length).sum := rfl
          omega
      · rintro (hfalse | hlt)
        · exact absurd hfalse (by simp)
        · right
          have : sumLen rest = (rest.map Track.length).sum := rfl
          omega

theorem statusGo_some_iff :
    ∀ (pl : List Track) (time acc : Nat) (t : Track),
      statusGo pl time acc = some t ↔
        ∃ k, pl.get? k = some t
          ∧ time ≤ acc + sumLen (pl.take (k + 1))
          ∧ ∀ j < k, acc + sumLen (pl.take (j + 1)) < time := by
  intro pl
  induction pl with
  | nil =>
    intro time acc t
    simp [statusGo]
  | cons t0 rest ih =>
    intro time acc t
    rw [statusGo]
    by_cases h : time ≤ acc + t0.length
    · rw [if_pos h]
      constructor
      · intro hsome
        have ht : t0 = t := by simpa using hsome
        refine ⟨0, by simp [ht], ?_, by omega⟩
        simp [sumLen]
        omega
      · rintro ⟨k, hk, hge, hlt⟩
        rcases k with _ | k'
        · have : t0 = t := by simpa using hk
          rw [this]
        · have h0 := hlt 0 (by omega)
          simp [sumLen] at h0
          omega
    · rw [if_neg h, ih]
      push_neg at h
      constructor
      · rintro ⟨k, hk, hge, hlt⟩
        refine ⟨k + 1, by simpa using hk, ?_, ?_⟩
        · simp only [List.take_succ_cons, sumLen, List.map_cons, List.sum_cons] at hge ⊢
          have : sumLen (rest.take (k + 1)) = ((rest.take (k + 1)).map Track.length).sum := rfl
          omega
        · intro j hj
          rcases j with _ | j'
          · simp [sumLen]
            omega
          · have := hlt j' (by omega)
            simp only [List.take_succ_cons, sumLen, List.map_cons, List.sum_cons] at this ⊢
            have h2 : sumLen (rest.take (j' + 1)) = ((rest.take (j' + 1)).map Track.length).sum := rfl
            omega
      · rintro ⟨k, hk, hge, hlt⟩
        rcases k with _ | k'
        · exfalso
          simp [sumLen] at hge
          omega
        · refine ⟨k', by simpa using hk, ?_, ?_⟩
          · simp only [List.take_succ_cons, sumLen, List.map_cons, List.sum_cons] at hge
            have : sumLen (rest.take (k' + 1)) = ((rest.take (k' + 1)).map Track.length).sum := rfl
            omega
          · intro j hj
            have := hlt (j + 1) (by omega)
            simp only [List.take_succ_cons, sumLen, List.map_cons, List.sum_cons] at this
            have h2 : sumLen (rest.take (j + 1)) = ((rest.take (j + 1)).map Track.length).sum := rfl
            omega

theorem digitsRev_length :
    ∀ (fuel n k : Nat), n < 10 ^ k → (digitsRev fuel n).length ≤ k := by
  intro fuel
  induction fuel with
  | zero => intro n k _; simp [digitsRev]
  | succ fuel ih =>
    intro n k h
    rw [digitsRev]
    by_cases hn : n = 0
    · rw [if_pos hn]; simp
    · rw [if_neg hn]
      rcases k with _ | k'
      · simp at h; omega
      · rw [List.length_cons]
        have : n / 10 < 10 ^ k' := by
          rw [Nat.div_lt_iff_lt_mul (by omega)]
          calc n < 10 ^ (k' + 1) := h
            _ = 10 ^ k' * 10 := by ring
        have := ih (n / 10) k' this
        omega

theorem fmt04_length {n : Nat} (h : n ≤ 9999) : (fmt04 n).length = 4 := by
  have hlen : (decRepr n).length ≤ 4 := by
    rw [decRepr]
    by_cases hn : n = 0
    · rw [if_pos hn]; simp
    · rw [if_neg hn]
      rw [List.length_map, List.length_reverse]
      exact digitsRev_length n n 4 (by norm_num; omega)
  rw [fmt04]
  by_cases hc : (decRepr n).length < 4
  · rw [if_pos hc]
    rw [List.length_append, List.length_replicate]
    omega
  · rw [if_neg hc]
    omega

end StatusFacts

section WatchdogFacts

theorem beat_none_iff :
    ∀ (ps : List Proc) (id : Nat) (now : ℚ),
      beat ps id now = none ↔ ∀ p ∈ ps, p.id ≠ id := by
  intro ps
  induction ps with
  | nil => intro id now; simp [beat]
  | cons p rest ih =>
    intro id now
    rw [beat]
    by_cases h : p.id = id
    · rw [if_pos h]
      simp [h]
    · rw [if_neg h]
      constructor
      · intro hm q hq
        rcases List.mem_cons.1 hq with rfl | hq2
        · exact h
        · have : beat rest id now = none := by
            rcases hbr : beat rest id now with _ | ps2
            · rfl
            · rw [hbr] at hm; simp at hm
          exact (ih id now).1 this q hq2
      · intro hall
        have : beat rest id now = none :=
          (ih id now).2 (fun q hq => hall q (List.mem_cons_of_mem p hq))
        rw [this]
        rfl

theorem beat_some_spec :
    ∀ (ps : List Proc) (id : Nat) (now : ℚ) (ps' : List Proc),
      beat ps id now = some ps' →
      ∃ k p, ps.get? k = some p ∧ p.id = id
        ∧ (∀ j < k, ∀ q, ps.get? j = some q → q.id ≠ id)
        ∧ ps' = ps.set k ⟨id, now⟩ := by
  intro ps
  induction ps with
  | nil => intro id now ps' h; exact absurd h (by simp [beat])
  | cons p rest ih =>
    intro id now ps' h
    rw [beat] at h
    by_cases hid : p.id = id
    · rw [if_pos hid] at h
      refine ⟨0, p, by simp, hid, by omega, ?_⟩
      have : ps' = ⟨p.id, now⟩ :: rest := by simpa using h.symm
      rw [this, hid]
      rfl
    · rw [if_neg hid] at h
      rcases hbr : beat rest id now with _ | ps2
      · rw [hbr] at h; simp at h
      · rw [hbr] at h
        have hps' : ps' = p :: ps2 := by simpa using h.symm
        obtain ⟨k, q, hk, hqid, hearlier, hset⟩ := ih id now ps2 hbr
        refine ⟨k + 1, q, by simpa using hk, hqid, ?_, ?_⟩
        · intro j hj r hr
          rcases j with _ | j'
          · have hpr : p = r := by simpa using hr
            rw [← hpr]; exact hid
          · exact hearlier j' (by omega) r (by simpa using hr)
        · rw [hps', hset]
          rfl

theorem lookupProc_none_iff (ps : List Proc) (id : Nat) :
    lookupProc ps id = none ↔ ∀ p ∈ ps, p.id ≠ id := by
  rw [lookupProc, List.find?_eq_none]
  constructor
  · intro h p hp
    have := h p hp
    simpa using this
  · intro h p hp
    simp [h p hp]

theorem lookupProc_mem_first :
    ∀ (ps : List Proc) (e : Proc),
      ps.Pairwise (fun a b => a.id ≠ b.id) → e ∈ ps →
      lookupProc ps e.id = some e := by
  intro ps
  induction ps with
  | nil => intro e _ h; simp at h
  | cons p rest ih =>
    intro e hpw hmem
    have hpw2 := List.pairwise_cons.1 hpw
    rw [lookupProc, List.find?]
    rcases List.mem_cons.1 hmem with rfl | hmem2
    · rw [beq_self_eq_true]
    · have hne : p.id ≠ e.id := hpw2.1 e hmem2
      rw [beq_eq_false_iff_ne.2 hne]
      exact ih e hpw2.2 hmem2

theorem is_alive_sentinel (ps : List Proc) (e : Proc)
    (hpw : ps.Pairwise (fun a b => a.id ≠ b.id)) (hmem : e ∈ ps)
    (hhb : e.heartbeat = -1) (now : ℚ) : is_alive ps e.id now = true := by
  rw [is_alive, lookupProc_mem_first ps e hpw hmem]
  simp [hhb]

theorem mem_eraseIdx_of_ne :
    ∀ (ps : List Proc) (k : Nat) (h : k < ps.length) (e : Proc),
      e ∈ ps → ps.get ⟨k, h⟩ ≠ e → e ∈ ps.eraseIdx k := by
  intro ps
  induction ps with
  | nil => intro k h; simp at h
  | cons p rest ih =>
    intro k h e hmem hne
    rcases k with _ | k'
    · rcases List.mem_cons.1 hmem with rfl | hmem2
      · exact absurd rfl hne
      · simpa [List.eraseIdx] using hmem2
    · rcases List.mem_cons.1 hmem with rfl | hmem2
      · simp [List.eraseIdx]
      · have : e ∈ rest.eraseIdx k' :=
          ih k' (by simpa using h) e hmem2 (by simpa using hne)
        simp [List.eraseIdx, this]

theorem sweepGo_keeps_sentinel :
    ∀ (fuel : Nat) (ps : List Proc) (k : Nat) (now : ℚ) (e : Proc),
      ps.Pairwise (fun a b => a.id ≠ b.id) → e ∈ ps → e.heartbeat = -1 →
      e ∈ sweepGo fuel ps k now := by
  intro fuel
  induction fuel with
  | zero => intro ps k now e _ hmem _; exact hmem
  | succ fuel ih =>
    intro ps k now e hpw hmem hhb
    rw [sweepGo]
    by_cases h : k < ps.length
    · rw [dif_pos h]
      by_cases halive : is_alive ps (ps.get ⟨k, h⟩).id now = true
      · rw [if_pos halive]
        exact ih ps (k + 1) now e hpw hmem hhb
      · rw [if_neg halive]
        have hne : ps.get ⟨k, h⟩ ≠ e := by
          intro heq
          exact halive (by rw [heq]; exact is_alive_sentinel ps e hpw hmem hhb now)
        exact ih (ps.eraseIdx k) (k + 1) now e
          (hpw.sublist (List.eraseIdx_sublist ps k))
          (mem_eraseIdx_of_ne ps k h e hmem hne) hhb
    · rw [dif_neg h]
      exact hmem

theorem sweep_keeps_sentinel (ps : List Proc) (now : ℚ) (e : Proc)
    (hpw : ps.Pairwise (fun a b => a.id ≠ b.id)) (hmem : e ∈ ps)
    (hhb : e.heartbeat = -1) : e ∈ sweep ps now :=
  sweepGo_keeps_sentinel ps.length ps 0 now e hpw hmem hhb

theorem sweepGo_sublist :
    ∀ (fuel : Nat) (ps : List Proc) (k : Nat) (now : ℚ),
      List.Sublist (sweepGo fuel ps k now) ps := by
  intro fuel
  induction fuel with
  | zero => intro ps k now; exact List.Sublist.refl ps
  | succ fuel ih =>
    intro ps k now
    rw [sweepGo]
    by_cases h : k < ps.length
    · rw [dif_pos h]
      by_cases halive : is_alive ps (ps.get ⟨k, h⟩).id now = true
      · rw [if_pos halive]
        exact ih ps (k + 1) now
      · rw [if_neg halive]
        exact (ih (ps.eraseIdx k) (k + 1) now).trans (List.eraseIdx_sublist ps k)
    · rw [dif_neg h]

theorem sweeps_keep_sentinel :
    ∀ (nows : List ℚ) (ps : List Proc) (e : Proc),
      ps.Pairwise (fun a b => a.id ≠ b.id) → e ∈ ps → e.heartbeat = -1 →
      e ∈ nows.foldl (fun acc t => sweep acc t) ps := by
  intro nows
  induction nows with
  | nil => intro ps e _ hmem _; exact hmem
  | cons t ts ih =>
    intro ps e hpw hmem hhb
    rw [List.foldl_cons]
    exact ih (sweep ps t) e (hpw.sublist (sweepGo_sublist ps.length ps 0 t))
      (sweep_keeps_sentinel ps t e hpw hmem hhb) hhb

end WatchdogFacts

section ConsumerFacts

theorem consumerGo_step_good (buffer : List (List Nat)) (i : Nat)
    (sent : List (List Nat)) (a : List Nat) (rest : List (Option (List Nat)))
    (ha : containsSeq recvBytes a = true) :
    consumerGo buffer i sent (some a :: rest) =
      consumerGo buffer ((if buffer.length ≤ i then 0 else i) + 1)
        (sent ++ [buffer.getD (if buffer.length ≤ i then 0 else i) []]) rest := by
  simp [consumerGo, ha]

theorem consumerGo_step_bad (buffer : List (List Nat)) (i : Nat)
    (sent : List (List Nat)) (a : List Nat) (rest : List (Option (List Nat)))
    (ha : containsSeq recvBytes a = false) :
    consumerGo buffer i sent (some a :: rest) =
      ⟨sent ++ [buffer.getD (if buffer.length ≤ i then 0 else i) []], true, true, true⟩ := by
  simp [consumerGo, ha]

theorem consumerGo_step_reset (buffer : List (List Nat)) (i : Nat)
    (sent : List (List Nat)) (rest : List (Option (List Nat))) :
    consumerGo buffer i sent (none :: rest) =
      ⟨sent ++ [buffer.getD (if buffer.length ≤ i then 0 else i) []], true, false, true⟩ := by
  simp [consumerGo]

theorem cursorWalk_succ (buffer : List (List Nat)) (i n : Nat) :
    cursorWalk buffer i (n + 1) =
      buffer.getD (if buffer.length ≤ i then 0 else i) [] ::
        cursorWalk buffer ((if buffer.length ≤ i then 0 else i) + 1) n := rfl

theorem consumerGo_run :
    ∀ (goods : List (Option (List Nat))) (buffer : List (List Nat))
      (i : Nat) (sent : List (List Nat)),
      (∀ g ∈ goods, ∃ a, g = some a ∧ containsSeq recvBytes a = true) →
      (consumerGo buffer i sent goods =
          ⟨sent ++ cursorWalk buffer i (goods.length + 1), false, false, false⟩)
      ∧ (∀ bad rest, containsSeq recvBytes bad = false →
          consumerGo buffer i sent (goods ++ some bad :: rest) =
            ⟨sent ++ cursorWalk buffer i (goods.length + 1), true, true, true⟩)
      ∧ (∀ rest, consumerGo buffer i sent (goods ++ none :: rest) =
          ⟨sent ++ cursorWalk buffer i (goods.length + 1), true, false, true⟩) := by
  intro goods
  induction goods with
  | nil =>
    intro buffer i sent _
    refine ⟨rfl, ?_, ?_⟩
    · intro bad rest hbad
      rw [List.nil_append, consumerGo_step_bad buffer i sent bad rest hbad]
      rw [List.length_nil, cursorWalk_succ]
      rfl
    · intro rest
      rw [List.nil_append, consumerGo_step_reset buffer i sent rest]
      rw [List.length_nil, cursorWalk_succ]
      rfl
  | cons g gs ih =>
    intro buffer i sent hgood
    obtain ⟨a, rfl, ha⟩ := hgood g (List.mem_cons_self g gs)
    have hgs : ∀ g ∈ gs, ∃ a, g = some a ∧ containsSeq recvBytes a = true :=
      fun g hg => hgood g (List.mem_cons_of_mem _ hg)
    have hwalk : ∀ n, sent ++ cursorWalk buffer i (n + 1 + 1) =
        (sent ++ [buffer.getD (if buffer.length ≤ i then 0 else i) []]) ++
          cursorWalk buffer ((if buffer.length ≤ i then 0 else i) + 1) (n + 1) := by
      intro n
      rw [cursorWalk_succ buffer i (n + 1), List.append_assoc]
      rfl
    obtain ⟨ih1, ih2, ih3⟩ := ih buffer ((if buffer.length ≤ i then 0 else i) + 1)
      (sent ++ [buffer.getD (if buffer.length ≤ i then 0 else i) []]) hgs
    refine ⟨?_, ?_, ?_⟩
    · rw [consumerGo_step_good buffer i sent a gs ha, ih1, List.length_cons, hwalk]
    · intro bad rest hbad
      rw [List.cons_append, consumerGo_step_good buffer i sent a _ ha,
        ih2 bad rest hbad, List.length_cons, hwalk]
    · intro rest
      rw [List.cons_append, consumerGo_step_good buffer i sent a _ ha,
        ih3 rest, List.length_cons, hwalk]

end ConsumerFacts

section Claims

/-- Claim C1 (amended): for every `TADD` request whose key equals the
configured secret and whose path names an existing file of size `S` bytes, the
handler appends exactly `⌈S / chunk_size⌉` blocks to the MediaBuffer, leaves
the Playlist unchanged — the `TADD` branch of `Radio.main` never appends a
Track record (the wire request carries no track metadata to build one from) —
and replies `TADD`; for every request with a wrong key, buffer and playlist
are unchanged and the reply is `AUTH`. -/
theorem tadd_spec (secret : List Nat) (fs : List Nat → Option (List Nat))
    (buffer : List (List Nat)) (playlist : List Track) (client_data : List Nat)
    (authkey track : List Nat)
    (h1 : (splitSpace client_data).get? 1 = some authkey)
    (h2 : (splitSpace client_data).get? 2 = some track) :
    (∀ content, authkey = secret → fs track = some content →
      tadd_handle secret fs buffer playlist client_data =
        (TaddReply.tadd, buffer ++ chunkFile chunk_size content, playlist)
      ∧ (buffer ++ chunkFile chunk_size content).length =
          buffer.length + (content.length + chunk_size - 1) / chunk_size)
    ∧ (authkey ≠ secret →
      tadd_handle secret fs buffer playlist client_data =
        (TaddReply.auth, buffer, playlist)) := by
  have h1' : (splitSpace client_data)[1]? = some authkey := by
    rw [← List.get?_eq_getElem?]; exact h1
  have h2' : (splitSpace client_data)[2]? = some track := by
    rw [← List.get?_eq_getElem?]; exact h2
  constructor
  · intro content hkey hfs
    constructor
    · simp [tadd_handle, h1', h2', hkey, hfs, add_track]
    · rw [List.length_append, chunkFile_length chunk_size content (by decide)]
  · intro hkey
    simp [tadd_handle, h1', h2', hkey]

/-- Claim C2 (amended): within a single StreamingSession (delivery loop guard
held, no reaper race), block `n+1` is sent only after the 4-byte read for
block `n` returned bytes containing `RECV`: after `k` RECV-bearing
acknowledgements exactly `k+1` blocks have been sent, in cursor order. An
acknowledgement without `RECV` makes the session close the socket, remove its
watchdog entry and exit; a connection reset makes it remove its watchdog entry
and exit without sending further blocks, but the socket is NOT closed on that
path (`client.close()` runs only in the bad-acknowledgement branch, or when
`remove_process` raises). -/
theorem consumer_flow_spec (goods : List (Option (List Nat)))
    (buffer : List (List Nat)) (i : Nat) (sent : List (List Nat))
    (hgood : ∀ g ∈ goods, ∃ a, g = some a ∧ containsSeq recvBytes a = true) :
    (consumerGo buffer i sent goods =
        ⟨sent ++ cursorWalk buffer i (goods.length + 1), false, false, false⟩)
    ∧ (∀ bad rest, containsSeq recvBytes bad = false →
        consumerGo buffer i sent (goods ++ some bad :: rest) =
          ⟨sent ++ cursorWalk buffer i (goods.length + 1), true, true, true⟩)
    ∧ (∀ rest, consumerGo buffer i sent (goods ++ none :: rest) =
        ⟨sent ++ cursorWalk buffer i (goods.length + 1), true, false, true⟩) :=
  consumerGo_run goods buffer i sent hgood

/-- Claim C3: on every tick of `Radio.producer`'s loop, `up_time` increases by
exactly 1, and `radio_time` increases by 1 unless `radio_time + 1` would
exceed the buffer duration computed once at loop start (held fixed across
ticks, not recomputed on ingestion), in which case it resets to 0; starting
from `radio_time = 0` it therefore never exceeds that fixed duration. -/
theorem producer_spec (buffer : List (List Nat)) (n u0 : Nat) :
    (producerRun (calculate_buffer_duration buffer) ⟨u0, 0⟩ n).up_time = u0 + n
    ∧ ((producerRun (calculate_buffer_duration buffer) ⟨u0, 0⟩ n).radio_time : ℚ)
        ≤ calculate_buffer_duration buffer
    ∧ ∀ s : ClockState,
        (producerTick (calculate_buffer_duration buffer) s).up_time = s.up_time + 1
        ∧ (¬((s.radio_time + 1 : ℚ) > calculate_buffer_duration buffer) →
            (producerTick (calculate_buffer_duration buffer) s).radio_time =
              s.radio_time + 1)
        ∧ (((s.radio_time + 1 : ℚ) > calculate_buffer_duration buffer) →
            (producerTick (calculate_buffer_duration buffer) s).radio_time = 0) := by
  refine ⟨producerRun_up _ n _,
    producerRun_radio_le _ (calculate_buffer_duration_nonneg buffer) n _ ?_,
    fun s => ⟨rfl, ?_, ?_⟩⟩
  · simpa using calculate_buffer_duration_nonneg buffer
  · intro h; rw [producerTick_radio, if_pos h]
  · intro h; rw [producerTick_radio, if_neg (not_not.2 h)]

/-- Claim C4: for every buffer and target time, if the target exceeds the
total scanned duration then `find_chunk_by_time` fails (raises, modeled
`none`); if the target lies within the (positive) total scanned duration, it
returns the `(block index, byte offset)` of the frame at which the cumulative
frame-duration scan from the start first reaches the target, every earlier
frame's cumulative duration being below the target. -/
theorem find_chunk_spec (buffer : List (List Nat)) (target : ℚ) :
    (calculate_buffer_duration buffer < target →
      find_chunk_by_time buffer target = none)
    ∧ (0 ≤ target → target ≤ calculate_buffer_duration buffer →
      0 < calculate_buffer_duration buffer →
      ∃ i p k d, find_chunk_by_time buffer target = some (i, p)
        ∧ (scanRecords buffer).get? k = some (i, p, d)
        ∧ target ≤ sumDG ((scanRecords buffer).take (k + 1))
        ∧ ∀ j < k, sumDG ((scanRecords buffer).take (j + 1)) < target) := by
  have hfind : find_chunk_by_time buffer target =
      firstHitG (scanRecords buffer) 0 target := findGo_eq buffer 0 0 [] target
  have hcalc : calculate_buffer_duration buffer = sumDG (scanRecords buffer) := by
    have := calcGo_eq_sum buffer 0 0 []
    simpa [calculate_buffer_duration, scanRecords] using this
  have hpos := recsGo_pos buffer 0 []
  constructor
  · intro h
    rw [hfind]
    exact firstHitG_none_of_lt _ _ _ hpos (by rw [hcalc] at h; linarith)
  · intro h0 hle hlt
    rcases hres : firstHitG (scanRecords buffer) 0 target with _ | ⟨i, p⟩
    · exfalso
      rcases firstHitG_none_imp _ _ _ hres with hnil | hltsum
      · rw [hcalc] at hlt
        rw [hnil] at hlt
        simp [sumDG] at hlt
      · rw [hcalc] at hle
        linarith
    · obtain ⟨k, d, hk, hge, hlt'⟩ := firstHitG_some_spec _ _ _ _ _ hres
      refine ⟨i, p, k, d, by rw [hfind, hres], hk, by simpa using hge,
        fun j hj => by simpa using hlt' j hj⟩

/-- Claim C5 (amended): the leftover carry makes the block-by-block scan of
`calculate_buffer_duration` agree with scanning the single continuous stream —
and, for a stream of well-formed back-to-back MP3 frames, with the sum of the
individual frame durations — provided no frame-size jump overshoots the end of
its scan window (`chainOk`); a frame HEADER straddling two adjacent blocks
(leftover of 1-3 bytes) is handled, but when a frame's body straddles a block
boundary the overshoot loses the carry (`data[position:]` is empty) and the
next block is rescanned from its start, where equality can fail. -/
theorem buffer_duration_spec (frames buffer : List (List Nat))
    (hval : ∀ f ∈ frames, isValidFrame f = true)
    (hchain : chainOk buffer = true)
    (hflat : buffer.flatten = frames.flatten) :
    calculate_buffer_duration buffer = (scanFrom buffer.flatten 0 0).1
    ∧ calculate_buffer_duration buffer = (frames.map frameDur).sum := by
  have h1 : calculate_buffer_duration buffer =
      0 + (scanFrom ([] ++ buffer.flatten) 0 0).1 :=
    calcGo_chain buffer 0 [] (by simp) hchain
  rw [List.nil_append] at h1
  rw [zero_add] at h1
  refine ⟨h1, ?_⟩
  rw [h1, hflat, scanFrom_frames frames hval]

/-- Claim C6 (amended): `Watchdog.beat` updates the first matching entry's
last-heartbeat to now when the id is registered; when the id is no longer
registered it does NOT fail silently — the `[... ][0]` lookup raises
`IndexError` (modeled `none`), the registry being left unchanged only because
the exception aborts the call before any write. -/
theorem beat_spec (ps : List Proc) (id : Nat) (now : ℚ) :
    (beat ps id now = none ↔ ∀ p ∈ ps, p.id ≠ id)
    ∧ ∀ ps', beat ps id now = some ps' →
        ∃ k p, ps.get? k = some p ∧ p.id = id
          ∧ (∀ j < k, ∀ q, ps.get? j = some q → q.id ≠ id)
          ∧ ps' = ps.set k ⟨id, now⟩ :=
  ⟨beat_none_iff ps id now, fun ps' h => beat_some_spec ps id now ps' h⟩

/-- Claim C7 (amended): a `TADD` command with fewer than 3 space-delimited
tokens is answered with `INVL` and no ingestion happens; but a command with
MORE than 3 tokens is NOT answered with `INVL` — the extra tokens are ignored
and the request proceeds on tokens 1 and 2. -/
theorem tadd_token_spec (secret : List Nat) (fs : List Nat → Option (List Nat))
    (buffer : List (List Nat)) (playlist : List Track) (client_data : List Nat) :
    ((splitSpace client_data).length ≤ 2 →
      tadd_handle secret fs buffer playlist client_data =
        (TaddReply.invl, buffer, playlist))
    ∧ (3 ≤ (splitSpace client_data).length →
      (tadd_handle secret fs buffer playlist client_data).1 ≠ TaddReply.invl) := by
  constructor
  · intro h
    have h2 : (splitSpace client_data)[2]? = none := by
      rw [← List.get?_eq_getElem?]
      exact List.get?_eq_none.2 (by omega)
    rcases h1 : (splitSpace client_data)[1]? with _ | tk
    · simp [tadd_handle, h1, h2]
    · simp [tadd_handle, h1, h2]
  · intro h
    obtain ⟨tk1, h1⟩ : ∃ a, (splitSpace client_data)[1]? = some a := by
      rcases hh : (splitSpace client_data)[1]? with _ | a
      · rw [← List.get?_eq_getElem?, List.get?_eq_none] at hh; omega
      · exact ⟨a, rfl⟩
    obtain ⟨tk2, h2⟩ : ∃ a, (splitSpace client_data)[2]? = some a := by
      rcases hh : (splitSpace client_data)[2]? with _ | a
      · rw [← List.get?_eq_getElem?, List.get?_eq_none] at hh; omega
      · exact ⟨a, rfl⟩
    by_cases hkey : tk1 = secret
    · rcases hfs : fs tk2 with _ | content
      · simp [tadd_handle, h1, h2, hkey, hfs]
      · simp [tadd_handle, h1, h2, hkey, hfs]
    · simp [tadd_handle, h1, h2, hkey]

/-- Claim C8: `Radio.status` walks the playlist in order accumulating declared
lengths; the reply describes the first track whose cumulative declared length
reaches the current radio time, sent as a zero-padded decimal length prefix
(4 ASCII digits whenever the payload is at most 9999 bytes) followed by the
JSON payload; when the radio time exceeds the sum of all declared lengths or
the playlist is empty, the reply is the literal 4-byte `NFND` with no length
prefix. -/
theorem status_spec (dumps : Nat → Nat → Track → List Nat) (playlist : List Track)
    (radio_time up_time : Nat) :
    (statusGo playlist radio_time 0 = none ↔
      (playlist = [] ∨ sumLen playlist < radio_time))
    ∧ (∀ t, statusGo playlist radio_time 0 = some t ↔
        ∃ k, playlist.get? k = some t
          ∧ radio_time ≤ sumLen (playlist.take (k + 1))
          ∧ ∀ j < k, sumLen (playlist.take (j + 1)) < radio_time)
    ∧ (statusGo playlist radio_time 0 = none →
        status dumps playlist radio_time up_time = nfndBytes ∧ nfndBytes.length = 4)
    ∧ (∀ t, statusGo playlist radio_time 0 = some t →
        status dumps playlist radio_time up_time =
          fmt04 (dumps radio_time up_time t).length ++ dumps radio_time up_time t
        ∧ ((dumps radio_time up_time t).length ≤ 9999 →
            (fmt04 (dumps radio_time up_time t).length).length = 4)) := by
  refine ⟨?_, ?_, ?_, ?_⟩
  · simpa using statusGo_none_iff playlist radio_time 0
  · intro t
    simpa using statusGo_some_iff playlist radio_time 0 t
  · intro h
    rw [status, h]
    exact ⟨rfl, rfl⟩
  · intro t h
    rw [status, h]
    exact ⟨rfl, fun hl => fmt04_length hl⟩

/-- Claim C9: `Watchdog.is_alive` returns false when no entry for the id
exists; returns true when the entry's last-heartbeat is the `-1` "not started"
sentinel; otherwise returns true iff now minus the last-heartbeat is at most
the death threshold, whose value is 100 seconds. -/
theorem is_alive_spec (ps : List Proc) (id : Nat) (now : ℚ) :
    (lookupProc ps id = none ↔ ∀ p ∈ ps, p.id ≠ id)
    ∧ (lookupProc ps id = none → is_alive ps id now = false)
    ∧ (∀ p, lookupProc ps id = some p → p.heartbeat = -1 →
        is_alive ps id now = true)
    ∧ (∀ p, lookupProc ps id = some p → p.heartbeat ≠ -1 →
        (is_alive ps id now = true ↔ now - p.heartbeat ≤ death))
    ∧ death = 100 := by
  refine ⟨lookupProc_none_iff ps id, ?_, ?_, ?_, rfl⟩
  · intro h
    rw [is_alive, h]
  · intro p hp hhb
    rw [is_alive, hp]
    simp [hhb]
  · intro p hp hhb
    constructor
    · intro h
      by_contra hc
      push_neg at hc
      simp only [is_alive, hp] at h
      rw [if_neg hhb, if_pos hc] at h
      exact absurd h (by simp)
    · intro hle
      simp only [is_alive, hp]
      rw [if_neg hhb, if_neg (not_lt.2 hle)]

/-- Claim C10: an entry registered with the watchdog (`new_process` stores the
`-1` sentinel) that never heartbeats keeps the sentinel forever, is reported
alive by `is_alive` at every time, and is therefore never removed by any
number of reap sweeps; the death-threshold bound applies only to sessions that
have heartbeaten at least once. Distinct session ids (as `uuid4` provides) are
assumed so the lookup finds the entry itself. -/
theorem watchdog_sentinel_spec (ps : List Proc) (e : Proc)
    (hpw : ps.Pairwise (fun a b => a.id ≠ b.id)) (hmem : e ∈ ps)
    (hhb : e.heartbeat = -1) :
    (∀ now, is_alive ps e.id now = true)
    ∧ (∀ nows : List ℚ, e ∈ nows.foldl (fun acc t => sweep acc t) ps)
    ∧ (∀ (id : Nat) (ps0 : List Proc), (⟨id, -1⟩ : Proc) ∈ new_process ps0 id) :=
  ⟨fun now => is_alive_sentinel ps e hpw hmem hhb now,
   fun nows => sweeps_keep_sentinel nows ps e hpw hmem hhb,
   fun id ps0 => by simp [new_process]⟩

end Claims

section Concrete

set_option allowUnsafeReducibility true
attribute [local semireducible] Rat.add Rat.sub Rat.mul Rat.div Rat.inv Rat.ofScientific
set_option maxRecDepth 8000

/-- Claim C1 counterexample: an authenticated `TADD` for an existing 3-byte
file replies `TADD` and appends 1 block to the buffer, but the playlist stays
empty — its length is 0, not the 0 + 1 the claim requires. -/
theorem tadd_playlist_cex :
    (tadd_handle [107] demoFs [] [] [84, 65, 68, 68, 32, 107, 32, 112]).1 = TaddReply.tadd
    ∧ (tadd_handle [107] demoFs [] [] [84, 65, 68, 68, 32, 107, 32, 112]).2.1.length = 1
    ∧ (tadd_handle [107] demoFs [] [] [84, 65, 68, 68, 32, 107, 32, 112]).2.2.length ≠ 0 + 1 := by
  decide

/-- Witness for the amended C1 at a concrete request ("TADD k p" against
secret "k" with a 3-byte file, and the same request with the wrong key "j"). -/
theorem tadd_spec_witness :
    (tadd_handle [107] demoFs [[5]] [] [84, 65, 68, 68, 32, 107, 32, 112] =
        (TaddReply.tadd, [[5]] ++ chunkFile chunk_size [1, 2, 3], [])
      ∧ ([[5]] ++ chunkFile chunk_size [1, 2, 3]).length =
          ([[5]] : List (List Nat)).length +
            (([1, 2, 3] : List Nat).length + chunk_size - 1) / chunk_size)
    ∧ tadd_handle [107] demoFs [[5]] [] [84, 65, 68, 68, 32, 106, 32, 112] =
        (TaddReply.auth, [[5]], []) :=
  ⟨(tadd_spec [107] demoFs [[5]] [] [84, 65, 68, 68, 32, 107, 32, 112] [107] [112]
      (by decide) (by decide)).1 [1, 2, 3] rfl (by decide),
   (tadd_spec [107] demoFs [[5]] [] [84, 65, 68, 68, 32, 106, 32, 112] [106] [112]
      (by decide) (by decide)).2 (by decide)⟩

/-- Claim C2 counterexample: on a connection reset the session exits and
removes its watchdog entry, but `socketClosed` is `false` — the code never
calls `client.close()` on the reset path, contrary to the claim. -/
theorem consumer_reset_cex :
    consumerGo [[7]] 0 [] [none] = ⟨[[7]], true, false, true⟩
    ∧ (consumerGo [[7]] 0 [] [none]).socketClosed = false := by
  decide

/-- Witness for the amended C2 on a 2-block buffer: one RECV acknowledgement,
then each of the three continuations. -/
theorem consumer_flow_spec_witness :
    consumerGo [[7], [8]] 0 [] [some recvBytes] =
      ⟨[] ++ cursorWalk [[7], [8]] 0 2, false, false, false⟩
    ∧ consumerGo [[7], [8]] 0 [] ([some recvBytes] ++ some [88] :: []) =
      ⟨[] ++ cursorWalk [[7], [8]] 0 2, true, true, true⟩
    ∧ consumerGo [[7], [8]] 0 [] ([some recvBytes] ++ none :: []) =
      ⟨[] ++ cursorWalk [[7], [8]] 0 2, true, false, true⟩ :=
  have h := consumer_flow_spec [some recvBytes] [[7], [8]] 0 []
    (fun g hg => by
      rw [List.mem_singleton] at hg
      exact ⟨recvBytes, hg, by decide⟩)
  ⟨h.1, h.2.1 [88] [] (by decide), h.2.2 []⟩

/-- Witness for C3: three ticks over an empty buffer (duration 0) keep
radio_time at 0 while up_time advances, and one tick at the wrap boundary
resets radio_time to 0. -/
theorem producer_spec_witness :
    (producerRun (calculate_buffer_duration []) ⟨2, 0⟩ 3).up_time = 2 + 3
    ∧ ((producerRun (calculate_buffer_duration []) ⟨2, 0⟩ 3).radio_time : ℚ) ≤
        calculate_buffer_duration []
    ∧ (producerTick (calculate_buffer_duration []) ⟨0, 0⟩).radio_time = 0 :=
  ⟨(producer_spec [] 3 2).1, (producer_spec [] 3 2).2.1,
   ((producer_spec [] 3 2).2.2 ⟨0, 0⟩).2.2 (by decide)⟩

/-- Witness for C4 on a one-frame buffer: target 1/50 s lies inside the
3/125 s total duration, and the first frame is the crossing. -/
theorem find_chunk_spec_witness :
    0 ≤ (1 / 50 : ℚ) ∧ (1 / 50 : ℚ) ≤ calculate_buffer_duration [demoFrame]
    ∧ 0 < calculate_buffer_duration [demoFrame]
    ∧ (∃ i p k d, find_chunk_by_time [demoFrame] (1 / 50) = some (i, p)
        ∧ (scanRecords [demoFrame]).get? k = some (i, p, d)
        ∧ (1 / 50 : ℚ) ≤ sumDG ((scanRecords [demoFrame]).take (k + 1))
        ∧ ∀ j < k, sumDG ((scanRecords [demoFrame]).take (j + 1)) < (1 / 50 : ℚ)) :=
  ⟨by norm_num, by decide, by decide,
   (find_chunk_spec [demoFrame] (1 / 50)).2 (by norm_num) (by decide) (by decide)⟩

/-- Claim C5 counterexample: `cexFrame` is one well-formed frame (continuous
scan duration 3/125 s), but chunked into fixed-size blocks of 50 bytes the
frame body straddles the boundary, the overshoot empties the leftover, the
body is rescanned, and `calculate_buffer_duration` double-counts (6/125 s). -/
theorem buffer_duration_cex :
    isValidFrame cexFrame = true
    ∧ (chunkFile 50 cexFrame).flatten = cexFrame
    ∧ calculate_buffer_duration (chunkFile 50 cexFrame) ≠ (scanFrom cexFrame 0 0).1
    ∧ calculate_buffer_duration (chunkFile 50 cexFrame) ≠ ([cexFrame].map frameDur).sum := by
  decide

/-- Witness for the amended C5: two frames chunked at 98 bytes, so the second
frame's header straddles the block boundary (2-byte leftover) but no jump
overshoots; the blocked scan equals the sum of the two frame durations. -/
theorem buffer_duration_spec_witness :
    (∀ f ∈ [demoFrame, demoFrame], isValidFrame f = true)
    ∧ chainOk (chunkFile 98 (demoFrame ++ demoFrame)) = true
    ∧ (chunkFile 98 (demoFrame ++ demoFrame)).flatten = [demoFrame, demoFrame].flatten
    ∧ calculate_buffer_duration (chunkFile 98 (demoFrame ++ demoFrame)) =
        ([demoFrame, demoFrame].map frameDur).sum :=
  ⟨by decide, by decide, by decide,
   (buffer_duration_spec [demoFrame, demoFrame] (chunkFile 98 (demoFrame ++ demoFrame))
      (by decide) (by decide) (by decide)).2⟩

/-- Claim C6 counterexample: `beat` on an unregistered id raises (models to
`none`) instead of returning successfully with the registry unchanged. -/
theorem beat_cex :
    beat ([] : List Proc) 0 5 = none ∧ beat ([] : List Proc) 0 5 ≠ some [] := by
  decide

/-- Witness for the amended C6: a registered id gets its heartbeat set to the
current time; an empty registry reports no match. -/
theorem beat_spec_witness :
    (beat ([] : List Proc) 7 3 = none ↔ ∀ p ∈ ([] : List Proc), p.id ≠ 7)
    ∧ (∃ k p, ([⟨5, -1⟩, ⟨6, 2⟩] : List Proc).get? k = some p ∧ p.id = 6
        ∧ (∀ j < k, ∀ q, ([⟨5, -1⟩, ⟨6, 2⟩] : List Proc).get? j = some q → q.id ≠ 6)
        ∧ [⟨5, -1⟩, ⟨6, 9⟩] = ([⟨5, -1⟩, ⟨6, 2⟩] : List Proc).set k ⟨6, 9⟩) :=
  ⟨(beat_spec [] 7 3).1,
   (beat_spec [⟨5, -1⟩, ⟨6, 2⟩] 6 9).2 [⟨5, -1⟩, ⟨6, 9⟩] (by decide)⟩

/-- Claim C7 counterexample: a `TADD` with four tokens, a correct key and an
existing path is NOT answered `INVL` — it replies `TADD` and ingests the
file, contrary to the claim that any token count other than 3 yields `INVL`
without ingestion. -/
theorem tadd_more_tokens_cex :
    (tadd_handle [107] demoFs [] [] [84, 65, 68, 68, 32, 107, 32, 112, 32, 120]).1 =
      TaddReply.tadd
    ∧ (tadd_handle [107] demoFs [] [] [84, 65, 68, 68, 32, 107, 32, 112, 32, 120]).1 ≠
      TaddReply.invl
    ∧ (tadd_handle [107] demoFs [] [] [84, 65, 68, 68, 32, 107, 32, 112, 32, 120]).2.1.length = 1
    ∧ 4 ≤ (splitSpace [84, 65, 68, 68, 32, 107, 32, 112, 32, 120]).length := by
  decide

/-- Witness for the amended C7: a 2-token request gets `INVL` unchanged; a
4-token request does not. -/
theorem tadd_token_spec_witness :
    tadd_handle [107] demoFs [[5]] [] [84, 65, 68, 68, 32, 107] =
      (TaddReply.invl, [[5]], [])
    ∧ (tadd_handle [107] demoFs [[5]] [] [84, 65, 68, 68, 32, 107, 32, 112, 32, 120]).1 ≠
        TaddReply.invl :=
  ⟨(tadd_token_spec [107] demoFs [[5]] [] [84, 65, 68, 68, 32, 107]).1 (by decide),
   (tadd_token_spec [107] demoFs [[5]] [] [84, 65, 68, 68, 32, 107, 32, 112, 32, 120]).2
     (by decide)⟩

/-- Witness for C8: playlist of declared lengths 5 and 7 at radio_time 6 — the
second track is now playing, its one-byte payload framed with a length prefix;
the empty playlist replies `NFND`. -/
theorem status_spec_witness :
    (∃ k, ([⟨0, 0, 5, 0⟩, ⟨1, 1, 7, 0⟩] : List Track).get? k = some ⟨1, 1, 7, 0⟩
      ∧ 6 ≤ sumLen (([⟨0, 0, 5, 0⟩, ⟨1, 1, 7, 0⟩] : List Track).take (k + 1))
      ∧ ∀ j < k, sumLen (([⟨0, 0, 5, 0⟩, ⟨1, 1, 7, 0⟩] : List Track).take (j + 1)) < 6)
    ∧ status (fun _ _ _ => [65]) [⟨0, 0, 5, 0⟩, ⟨1, 1, 7, 0⟩] 6 0 =
        fmt04 ([65] : List Nat).length ++ ([65] : List Nat)
    ∧ status (fun _ _ _ => [65]) [] 6 0 = nfndBytes :=
  ⟨((status_spec (fun _ _ _ => [65]) [⟨0, 0, 5, 0⟩, ⟨1, 1, 7, 0⟩] 6 0).2.1 ⟨1, 1, 7, 0⟩).1
      (by decide),
   ((status_spec (fun _ _ _ => [65]) [⟨0, 0, 5, 0⟩, ⟨1, 1, 7, 0⟩] 6 0).2.2.2 ⟨1, 1, 7, 0⟩
      (by decide)).1,
   ((status_spec (fun _ _ _ => [65]) [] 6 0).2.2.1 (by decide)).1⟩

/-- Witness for C9: absent id dead; sentinel entry alive arbitrarily late; a
heartbeaten entry's liveness is exactly the 100-second threshold test. -/
theorem is_alive_spec_witness :
    is_alive [] 9 0 = false
    ∧ is_alive [⟨1, -1⟩] 1 99999 = true
    ∧ (is_alive [⟨2, 10⟩] 2 50 = true ↔ (50 : ℚ) - 10 ≤ death)
    ∧ death = 100 :=
  ⟨(is_alive_spec [] 9 0).2.1 (by decide),
   (is_alive_spec [⟨1, -1⟩] 1 99999).2.2.1 ⟨1, -1⟩ (by decide) (by decide),
   (is_alive_spec [⟨2, 10⟩] 2 50).2.2.2.1 ⟨2, 10⟩ (by decide) (by decide),
   (is_alive_spec [] 9 0).2.2.2.2⟩

/-- Witness for C10: the never-heartbeaten entry `⟨1, -1⟩` stays alive at time
99999 and survives two reap sweeps that occur long past the threshold. -/
theorem watchdog_sentinel_spec_witness :
    is_alive [⟨1, -1⟩, ⟨2, 0⟩] (Proc.mk 1 (-1)).id 99999 = true
    ∧ (⟨1, -1⟩ : Proc) ∈ [500, 1000].foldl (fun acc t => sweep acc t) [⟨1, -1⟩, ⟨2, 0⟩]
    ∧ (⟨3, -1⟩ : Proc) ∈ new_process [] 3 :=
  have h := watchdog_sentinel_spec [⟨1, -1⟩, ⟨2, 0⟩] ⟨1, -1⟩ (by decide) (by decide) (by decide)
  ⟨h.1 99999, h.2.1 [500, 1000], h.2.2 3 []⟩

end Concrete

end RadioServer
